import Mathlib

/-!
Verification of the delta lazy-loading / change-tracking containers
(package delta, file lazy.go).

The insertion-ordered associative store (the external linkedmap
collaborator) is modelled as an association list with the interface
contract of section 6 of the design document: get returns the entry for a
key, put updates an existing entry in place (keeping the insertion
position of the first put) or appends a new one, delete removes the
entry, and iteration over keys, values and entries follows insertion
order.

The caller-supplied fetch function is a field of the Go structs that is
set at construction and never reassigned; here it is passed explicitly to
the operations that invoke it.  Operations that may invoke fetch return,
besides the Go result and the updated state, a Bool recording whether
fetch was invoked, which is the observable effect the design document
talks about ("without re-invoking fetch").  Go (value, error) returns
become Except values; the Go zero value of a type is Inhabited.default.
-/

set_option autoImplicit false
set_option linter.unusedSectionVars false

namespace Delta

universe u

/-- Insertion-ordered map lookup: first entry with the given key. -/
def lmGet {I : Type} {α : Type} [DecidableEq I] : List (I × α) → I → Option α
  | [], _ => none
  | p :: rest, k => if p.1 = k then some p.2 else lmGet rest k

/-- Insertion-ordered map put: replaces the entry with the given key in
place, or appends a new entry at the end. -/
def lmPut {I : Type} {α : Type} [DecidableEq I] : List (I × α) → I → α → List (I × α)
  | [], k, v => [(k, v)]
  | p :: rest, k, v => if p.1 = k then (k, v) :: rest else p :: lmPut rest k v

/-- Insertion-ordered map delete: removes the entry with the given key. -/
def lmDelete {I : Type} {α : Type} [DecidableEq I] : List (I × α) → I → List (I × α)
  | [], _ => []
  | p :: rest, k => if p.1 = k then rest else p :: lmDelete rest k

/-- Per-item disposition, lazy.go lines 73-81. -/
inductive Status : Type where
  | Unchanged
  | Added
  | Removed
  | Modified
  | Absent
  deriving DecidableEq, Repr

/-- The identity capability: T exposes ID() returning an I. -/
class Identifiable (T : Type) (I : outParam Type) where
  ID : T → I

export Identifiable (ID)

/-- One tracked entry of a lazy collection, lazy.go lines 87-90.  The Go
struct leaves value at the zero value of T in tombstone entries; here
that zero value is Inhabited.default. -/
structure Item (T I : Type) where
  value : T
  status : Status
  deriving DecidableEq, Repr

/-- State of LazySlice, lazy.go lines 92-97, without the immutable fetch
function field (passed explicitly to Get/GetAll). -/
structure LazySlice (T I : Type) where
  isSet : Bool
  isReset : Bool
  fetched : List (I × Item T I)
  deriving DecidableEq, Repr

/-- Errors a Get can produce: the sentinel ErrNotFound of lazy.go line
144, or a propagated fetch failure. -/
inductive GetError (E : Type) : Type where
  | notFound
  | fetch (e : E)
  deriving DecidableEq, Repr

variable {T I E : Type} [DecidableEq I] [Identifiable T I] [Inhabited T] [Inhabited I]

/-- NewLazySlice, lazy.go lines 99-105. -/
def NewLazySlice (T I : Type) : LazySlice T I :=
  { isSet := false, isReset := false, fetched := [] }

/-- The filterRemoved iterator, lazy.go lines 131-142: yields the values
of the items whose status is not Removed, in order. -/
def filterRemoved {T I : Type} : List (Item T I) → List T
  | [] => []
  | it :: rest =>
      if it.status = Status.Removed then filterRemoved rest
      else it.value :: filterRemoved rest

/-- One iteration of the merge loop in GetAll, lazy.go lines 118-125. -/
def mergeStep (m : List (I × Item T I)) (v : T) : List (I × Item T I) :=
  match lmGet m (ID v) with
  | none => lmPut m (ID v) { value := v, status := Status.Unchanged }
  | some item =>
      if item.status = Status.Added then
        lmPut m (ID v) { value := item.value, status := Status.Modified }
      else m

/-- The whole merge loop of GetAll over the fetched values. -/
def mergeFetched (m : List (I × Item T I)) (vs : List T) : List (I × Item T I) :=
  vs.foldl mergeStep m

/-- LazySlice.GetAll, lazy.go lines 107-129.  The zero value passed to
the fetch function to mean "load all" is the default of I.  The third
component records whether fetch was invoked. -/
def LazySlice.GetAll (fn : I → Except E (List T)) (s : LazySlice T I) :
    Except E (List T) × LazySlice T I × Bool :=
  if s.isSet then (Except.ok (filterRemoved (s.fetched.map Prod.snd)), s, false)
  else
    match fn default with
    | Except.error e => (Except.error e, s, true)
    | Except.ok values =>
        let m := mergeFetched s.fetched values
        (Except.ok (filterRemoved (m.map Prod.snd)),
         { s with fetched := m, isSet := true }, true)

/-- LazySlice.Get, lazy.go lines 146-172. -/
def LazySlice.Get (fn : I → Except E (List T)) (s : LazySlice T I) (i : I) :
    Except (GetError E) T × LazySlice T I × Bool :=
  match lmGet s.fetched i with
  | some item =>
      if item.status = Status.Absent ∨ item.status = Status.Removed then
        (Except.error GetError.notFound, s, false)
      else (Except.ok item.value, s, false)
  | none =>
      if s.isSet then (Except.error GetError.notFound, s, false)
      else
        match fn i with
        | Except.error e => (Except.error (GetError.fetch e), s, true)
        | Except.ok [] =>
            (Except.error GetError.notFound,
             { s with fetched := lmPut s.fetched i { value := default, status := Status.Absent } },
             true)
        | Except.ok (v :: _) =>
            (Except.ok v,
             { s with fetched := lmPut s.fetched (ID v) { value := v, status := Status.Unchanged } },
             true)

/-- LazySlice.SetAll, lazy.go lines 174-181: fresh store, every value
recorded as Added in order. -/
def LazySlice.SetAll (s : LazySlice T I) (value : List T) : LazySlice T I :=
  { s with
    isReset := true
    isSet := true
    fetched := value.foldl (fun m v => lmPut m (ID v) { value := v, status := Status.Added }) [] }

/-- LazySlice.Set, lazy.go lines 183-197. -/
def LazySlice.Set (s : LazySlice T I) (value : T) : LazySlice T I :=
  match lmGet s.fetched (ID value) with
  | some item =>
      let status :=
        match item.status with
        | Status.Absent => Status.Added
        | Status.Added => Status.Added
        | Status.Removed => Status.Modified
        | Status.Unchanged => Status.Modified
        | Status.Modified => Status.Modified
      { s with fetched := lmPut s.fetched (ID value) { value := value, status := status } }
  | none =>
      { s with fetched := lmPut s.fetched (ID value) { value := value, status := Status.Added } }

/-- LazySlice.Clear, lazy.go lines 199-203. -/
def LazySlice.Clear (s : LazySlice T I) : LazySlice T I :=
  { s with isSet := true, isReset := true, fetched := [] }

/-- LazySlice.Remove, lazy.go lines 205-215: deletes an Added entry
outright, otherwise stores a Removed tombstone (with the zero value of
T); returns whether the id was tracked. -/
def LazySlice.Remove (s : LazySlice T I) (i : I) : LazySlice T I × Bool :=
  match lmGet s.fetched i with
  | some item =>
      if item.status = Status.Added then ({ s with fetched := lmDelete s.fetched i }, true)
      else ({ s with fetched := lmPut s.fetched i { value := default, status := Status.Removed } }, true)
  | none =>
      ({ s with fetched := lmPut s.fetched i { value := default, status := Status.Removed } }, false)

/-- LazySlice.IsReset, lazy.go lines 217-219. -/
def LazySlice.IsReset (s : LazySlice T I) : Bool := s.isReset

/-- One reported change, lazy.go lines 226-230. -/
structure SliceChange (I T : Type) where
  ID : I
  Value : T
  Status : Status
  deriving DecidableEq, Repr

/-- The changes report, lazy.go lines 221-224. -/
structure ChangeSet (T I : Type) where
  Reset : Bool
  Items : List (SliceChange I T)
  deriving DecidableEq, Repr

/-- The changesIterator loop, lazy.go lines 239-256: yields every entry
whose status is not Unchanged, in store order. -/
def changesList {T I : Type} : List (I × Item T I) → List (SliceChange I T)
  | [] => []
  | (k, it) :: rest =>
      if it.status = Status.Unchanged then changesList rest
      else { ID := k, Value := it.value, Status := it.status } :: changesList rest

/-- LazySlice.Changes, lazy.go lines 232-237. -/
def LazySlice.Changes (s : LazySlice T I) : ChangeSet T I :=
  { Reset := s.isReset, Items := changesList s.fetched }

/-- NewSlice, lazy.go lines 262-273: the eager variant embeds a LazySlice
pre-populated with every value at status Unchanged and isSet true. -/
def NewSlice (value : List T) : LazySlice T I :=
  { isSet := true
    isReset := false
    fetched := value.foldl (fun m v => lmPut m (ID v) { value := v, status := Status.Unchanged }) [] }

/-- Slice.Get, lazy.go lines 279-286: never fails, ignores status, zero
value when untracked. -/
def Slice.Get (s : LazySlice T I) (i : I) : T :=
  match lmGet s.fetched i with
  | some item => item.value
  | none => default

/-- Slice.GetAll, lazy.go lines 275-277. -/
def Slice.GetAll (s : LazySlice T I) : List T :=
  filterRemoved (s.fetched.map Prod.snd)

/-- State of LazyScalar, lazy.go lines 12-17, without the immutable fetch
function field. -/
structure LazyScalar (T : Type) where
  isSet : Bool
  value : T
  isDirty : Bool
  deriving DecidableEq, Repr

/-- NewLazy, lazy.go lines 19-21 (value starts at the zero value). -/
def NewLazy (T : Type) [Inhabited T] : LazyScalar T :=
  { isSet := false, value := default, isDirty := false }

/-- LazyScalar.Get, lazy.go lines 23-35.  The third component records
whether fetch was invoked. -/
def LazyScalar.Get (fn : Unit → Except E T) (v : LazyScalar T) :
    Except E T × LazyScalar T × Bool :=
  if v.isSet then (Except.ok v.value, v, false)
  else
    match fn () with
    | Except.error e => (Except.error e, v, true)
    | Except.ok value => (Except.ok value, { v with value := value, isSet := true }, true)

/-- LazyScalar.Set, lazy.go lines 37-41. -/
def LazyScalar.Set (v : LazyScalar T) (value : T) : LazyScalar T :=
  { v with value := value, isSet := true, isDirty := true }

/-- LazyScalar.Change, lazy.go lines 47-52. -/
def LazyScalar.Change (v : LazyScalar T) : Option T :=
  if v.isDirty then some v.value else none

/-- The key invariant of section 3 of the design document: every key in
the store is the identity of its stored item's value, when that value is
present (tombstone entries with status Removed or Absent hold the zero
value instead). -/
def storeInv (m : List (I × Item T I)) : Prop :=
  ∀ p ∈ m, p.2.status ≠ Status.Removed → p.2.status ≠ Status.Absent →
    ID p.2.value = p.1

instance storeInvDecidable (m : List (I × Item T I)) : Decidable (storeInv (I := I) m) := by
  unfold storeInv
  infer_instance

/-- Transcribed from the claim wording for Set: untracked, Absent, or
Added yield Added; Unchanged or Removed yield Modified; Modified stays
Modified.  To be compared with the switch statement of lazy.go lines
186-192. -/
def specSetStatus : Option Status → Status
  | none => Status.Added
  | some Status.Absent => Status.Added
  | some Status.Added => Status.Added
  | some Status.Unchanged => Status.Modified
  | some Status.Removed => Status.Modified
  | some Status.Modified => Status.Modified

/-- A concrete identifiable value type for exercising the theorems, in
the shape of the entities of the example package: a numeric identity and
a string payload.  Its Go zero value has identity 0 and empty payload. -/
structure TestVal where
  id : Nat
  val : String
  deriving DecidableEq, Repr

instance : Identifiable TestVal Nat := ⟨TestVal.id⟩

instance : Inhabited TestVal := ⟨⟨0, ""⟩⟩

/-- A loaded slice with one entry of each interesting status. -/
def sampleSlice : LazySlice TestVal Nat :=
  { isSet := true
    isReset := false
    fetched :=
      [(1, { value := { id := 1, val := "a" }, status := Status.Unchanged }),
       (2, { value := { id := 2, val := "b" }, status := Status.Added }),
       (3, { value := { id := 3, val := "c" }, status := Status.Modified }),
       (4, { value := default, status := Status.Removed }),
       (5, { value := default, status := Status.Absent })] }

/-- A not-yet-loaded slice holding one pending local add, as in the
merge scenario of section 8 of the design document. -/
def pendingSlice : LazySlice TestVal Nat :=
  { isSet := false
    isReset := false
    fetched := [(2, { value := { id := 2, val := "x" }, status := Status.Added })] }

/-- A fetch function: id 0 (the sentinel) returns a full baseline, id 1
returns a single record, anything else returns no record. -/
def okFetch : Nat → Except String (List TestVal)
  | 0 => Except.ok [{ id := 1, val := "a0" }, { id := 2, val := "x0" }]
  | 1 => Except.ok [{ id := 1, val := "a0" }]
  | _ => Except.ok []

/-- A fetch function that always fails. -/
def failFetch : Nat → Except String (List TestVal) :=
  fun _ => Except.error "boom"

/-- A scalar fetch function that always fails. -/
def failScalarFetch : Unit → Except String Nat :=
  fun _ => Except.error "boom"

/-!  Lemmas about the ordered-store collaborator. -/

section StoreLemmas

variable {α : Type}

theorem lmGet_lmPut_self (m : List (I × α)) (k : I) (v : α) :
    lmGet (lmPut m k v) k = some v := by
  induction m with
  | nil => simp [lmGet, lmPut]
  | cons p rest ih =>
      by_cases h : p.1 = k
      · simp [lmGet, lmPut, h]
      · simp [lmGet, lmPut, h, ih]

theorem lmGet_lmPut_ne (m : List (I × α)) (k k' : I) (v : α) (h : k' ≠ k) :
    lmGet (lmPut m k v) k' = lmGet m k' := by
  have hk : ¬(k = k') := fun hh => h hh.symm
  induction m with
  | nil => simp [lmGet, lmPut, hk]
  | cons p rest ih =>
      by_cases hp : p.1 = k
      · simp [lmGet, lmPut, hp, hk]
      · by_cases hp' : p.1 = k'
        · simp [lmGet, lmPut, hp, hp', hk, h]
        · simp [lmGet, lmPut, hp, hp', ih]

theorem lmGet_eq_none_iff (m : List (I × α)) (k : I) :
    lmGet m k = none ↔ k ∉ m.map Prod.fst := by
  induction m with
  | nil => simp [lmGet]
  | cons p rest ih =>
      by_cases h : p.1 = k
      · simp [lmGet, h]
      · have hne : ¬(k = p.1) := fun hh => h hh.symm
        simp [lmGet, h, ih, hne]

theorem lmGet_mem (m : List (I × α)) (k : I) (v : α) (h : lmGet m k = some v) :
    (k, v) ∈ m := by
  induction m with
  | nil => simp [lmGet] at h
  | cons p rest ih =>
      obtain ⟨a, b⟩ := p
      by_cases hp : a = k
      · simp [lmGet, hp] at h
        subst hp
        subst h
        exact List.mem_cons_self _ _
      · simp [lmGet, hp] at h
        exact List.mem_cons_of_mem _ (ih h)

theorem mem_lmPut (m : List (I × α)) (k : I) (v : α) (p : I × α)
    (h : p ∈ lmPut m k v) : p = (k, v) ∨ p ∈ m := by
  induction m with
  | nil => simpa [lmPut] using h
  | cons q rest ih =>
      by_cases hq : q.1 = k
      · simp [lmPut, hq] at h
        rcases h with h | h
        · exact Or.inl h
        · exact Or.inr (List.mem_cons_of_mem _ h)
      · simp [lmPut, hq] at h
        rcases h with h | h
        · exact Or.inr (by simp [h])
        · rcases ih h with h' | h'
          · exact Or.inl h'
          · exact Or.inr (List.mem_cons_of_mem _ h')

theorem self_mem_lmPut (m : List (I × α)) (k : I) (v : α) :
    (k, v) ∈ lmPut m k v := by
  induction m with
  | nil => simp [lmPut]
  | cons q rest ih =>
      by_cases hq : q.1 = k
      · simp [lmPut, hq]
      · simp [lmPut, hq]
        exact Or.inr ih

theorem mem_lmDelete (m : List (I × α)) (k : I) (p : I × α)
    (h : p ∈ lmDelete m k) : p ∈ m := by
  induction m with
  | nil => simp [lmDelete] at h
  | cons q rest ih =>
      by_cases hq : q.1 = k
      · simp [lmDelete, hq] at h
        exact List.mem_cons_of_mem _ h
      · simp [lmDelete, hq] at h
        rcases h with h | h
        · simp [h]
        · exact List.mem_cons_of_mem _ (ih h)

theorem lmPut_of_not_mem (m : List (I × α)) (k : I) (v : α)
    (h : k ∉ m.map Prod.fst) : lmPut m k v = m ++ [(k, v)] := by
  induction m with
  | nil => simp [lmPut]
  | cons q rest ih =>
      have h1 : ¬(q.1 = k) := fun hh => h (by simp [hh])
      have h2 : k ∉ rest.map Prod.fst := fun hh => h (by simp [hh])
      simp [lmPut, h1, ih h2]

theorem keys_lmPut (m : List (I × α)) (k : I) (v : α) :
    (lmPut m k v).map Prod.fst =
      if k ∈ m.map Prod.fst then m.map Prod.fst else m.map Prod.fst ++ [k] := by
  induction m with
  | nil => simp [lmPut]
  | cons q rest ih =>
      by_cases hq : q.1 = k
      · simp [lmPut, hq]
      · have hq' : ¬(k = q.1) := fun hh => hq hh.symm
        by_cases hm : k ∈ rest.map Prod.fst
        · simp [lmPut, hq, hq', hm, ih]
        · simp [lmPut, hq, hq', hm, ih]

theorem keys_lmPut_nodup (m : List (I × α)) (k : I) (v : α)
    (h : (m.map Prod.fst).Nodup) : ((lmPut m k v).map Prod.fst).Nodup := by
  rw [keys_lmPut]
  by_cases hm : k ∈ m.map Prod.fst
  · simpa [hm] using h
  · rw [if_neg hm]
    refine List.Nodup.append h (List.nodup_singleton k) ?_
    intro a ha hb
    simp at hb
    subst hb
    exact hm ha

theorem lmGet_lmDelete_self (m : List (I × α)) (k : I)
    (h : (m.map Prod.fst).Nodup) : lmGet (lmDelete m k) k = none := by
  rw [lmGet_eq_none_iff]
  induction m with
  | nil => simp [lmDelete]
  | cons q rest ih =>
      rw [List.map_cons, List.nodup_cons] at h
      by_cases hq : q.1 = k
      · simp only [lmDelete, if_pos hq]
        intro hk
        apply h.1
        rw [hq]
        exact hk
      · simp only [lmDelete, if_neg hq, List.map_cons, List.mem_cons]
        intro hk
        rcases hk with hk | hk
        · exact hq hk.symm
        · exact ih h.2 hk

end StoreLemmas

/-!  Lemmas about the GetAll merge loop. -/

theorem mergeFetched_nil (m : List (I × Item T I)) : mergeFetched m [] = m := rfl

theorem mergeFetched_cons (m : List (I × Item T I)) (v : T) (vs : List T) :
    mergeFetched m (v :: vs) = mergeFetched (mergeStep m v) vs := rfl

theorem lmGet_mergeStep_ne (m : List (I × Item T I)) (v : T) (i : I)
    (h : ID v ≠ i) : lmGet (mergeStep m v) i = lmGet m i := by
  simp only [mergeStep]
  cases hg : lmGet m (ID (I := I) v) with
  | none => simp [lmGet_lmPut_ne _ _ _ _ (fun hh => h hh.symm)]
  | some it =>
      by_cases hs : it.status = Status.Added
      · simp [hs, lmGet_lmPut_ne _ _ _ _ (fun hh => h hh.symm)]
      · simp [hs]

theorem lmGet_mergeFetched_not_added (vs : List T) (m : List (I × Item T I))
    (i : I) (it : Item T I) (hg : lmGet m i = some it)
    (hs : it.status ≠ Status.Added) :
    lmGet (mergeFetched m vs) i = some it := by
  induction vs generalizing m with
  | nil => simpa [mergeFetched_nil] using hg
  | cons v rest ih =>
      rw [mergeFetched_cons]
      by_cases hv : ID (I := I) v = i
      · have hstep : mergeStep m v = m := by
          simp only [mergeStep, hv, hg, if_neg hs]
        rw [hstep]
        exact ih m hg
      · exact ih _ (by rw [lmGet_mergeStep_ne m v i hv]; exact hg)

theorem lmGet_mergeFetched_added (vs : List T) (m : List (I × Item T I))
    (i : I) (it : Item T I) (hg : lmGet m i = some it)
    (hs : it.status = Status.Added) (hmem : i ∈ vs.map (ID (I := I))) :
    lmGet (mergeFetched m vs) i =
      some { value := it.value, status := Status.Modified } := by
  induction vs generalizing m with
  | nil => simp at hmem
  | cons v rest ih =>
      rw [mergeFetched_cons]
      by_cases hv : ID (I := I) v = i
      · have hstep : mergeStep m v =
            lmPut m (ID v) { value := it.value, status := Status.Modified } := by
          simp only [mergeStep, hv, hg, if_pos hs]
        rw [hstep]
        apply lmGet_mergeFetched_not_added
        · rw [← hv]
          exact lmGet_lmPut_self _ _ _
        · simp
      · have hmem' : i ∈ rest.map (ID (I := I)) := by
          rw [List.map_cons] at hmem
          rcases List.mem_cons.mp hmem with h | h
          · exact absurd h.symm hv
          · exact h
        exact ih _ (by rw [lmGet_mergeStep_ne m v i hv]; exact hg) hmem'

theorem lmGet_mergeFetched_new (vs : List T) (m : List (I × Item T I))
    (i : I) (v : T) (hg : lmGet m i = none)
    (hfind : vs.find? (fun w => decide (ID (I := I) w = i)) = some v) :
    lmGet (mergeFetched m vs) i =
      some { value := v, status := Status.Unchanged } := by
  induction vs generalizing m with
  | nil => simp at hfind
  | cons w rest ih =>
      rw [mergeFetched_cons]
      by_cases hw : ID (I := I) w = i
      · have hv : w = v := by
          rw [List.find?_cons_of_pos _ (by simpa using hw)] at hfind
          exact Option.some.inj hfind
        subst hv
        have hstep : mergeStep m w =
            lmPut m (ID w) { value := w, status := Status.Unchanged } := by
          simp only [mergeStep, hw, hg]
        rw [hstep]
        apply lmGet_mergeFetched_not_added
        · rw [← hw]
          exact lmGet_lmPut_self _ _ _
        · simp
      · rw [List.find?_cons_of_neg _ (by simpa using hw)] at hfind
        exact ih _ (by rw [lmGet_mergeStep_ne m w i hw]; exact hg) hfind

/-!  Lemmas about the two filtering iterators. -/

theorem filterRemoved_eq_filter_map (l : List (Item T I)) :
    filterRemoved l =
      (l.filter (fun it => decide (it.status ≠ Status.Removed))).map Item.value := by
  induction l with
  | nil => simp [filterRemoved]
  | cons it rest ih =>
      by_cases h : it.status = Status.Removed
      · simp [filterRemoved, h, ih]
      · simp [filterRemoved, h, ih]

theorem changesList_eq_filter_map (m : List (I × Item T I)) :
    changesList m =
      (m.filter (fun p => decide (p.2.status ≠ Status.Unchanged))).map
        (fun p => { ID := p.1, Value := p.2.value, Status := p.2.status }) := by
  induction m with
  | nil => simp [changesList]
  | cons p rest ih =>
      obtain ⟨k, it⟩ := p
      by_cases h : it.status = Status.Unchanged
      · simp [changesList, h, ih]
      · simp [changesList, h, ih]

theorem mem_changesList (m : List (I × Item T I)) (k : I) (it : Item T I)
    (hmem : (k, it) ∈ m) (hs : it.status ≠ Status.Unchanged) :
    ({ ID := k, Value := it.value, Status := it.status } : SliceChange I T) ∈
      changesList m := by
  induction m with
  | nil => simp at hmem
  | cons p rest ih =>
      obtain ⟨k', it'⟩ := p
      rcases List.mem_cons.mp hmem with h | h
      · obtain ⟨h1, h2⟩ := Prod.mk.injEq .. ▸ h
        subst h1
        subst h2
        simp [changesList, hs]
      · by_cases h' : it'.status = Status.Unchanged
        · simp [changesList, h', ih h]
        · simp [changesList, h']
          exact Or.inr (ih h)

theorem changesList_ID_mem_keys (m : List (I × Item T I)) (c : SliceChange I T)
    (hc : c ∈ changesList m) : c.ID ∈ m.map Prod.fst := by
  induction m with
  | nil => simp [changesList] at hc
  | cons p rest ih =>
      obtain ⟨k, it⟩ := p
      by_cases h : it.status = Status.Unchanged
      · rw [changesList, if_pos h] at hc
        simp [ih hc]
      · rw [changesList, if_neg h] at hc
        rcases List.mem_cons.mp hc with h' | h'
        · subst h'
          simp
        · simp [ih h']

/-!  Lemmas about the store invariant. -/

theorem storeInv_lmPut (m : List (I × Item T I)) (k : I) (it : Item T I)
    (hm : storeInv m)
    (hit : it.status ≠ Status.Removed → it.status ≠ Status.Absent → ID it.value = k) :
    storeInv (lmPut m k it) := by
  intro p hp h1 h2
  rcases mem_lmPut m k it p hp with h | h
  · subst h
    exact hit h1 h2
  · exact hm p h h1 h2

theorem storeInv_lmDelete (m : List (I × Item T I)) (k : I)
    (hm : storeInv m) : storeInv (lmDelete m k) :=
  fun p hp h1 h2 => hm p (mem_lmDelete m k p hp) h1 h2

theorem storeInv_mergeFetched (vs : List T) (m : List (I × Item T I))
    (hm : storeInv m) : storeInv (mergeFetched m vs) := by
  induction vs generalizing m with
  | nil => simpa [mergeFetched_nil] using hm
  | cons v rest ih =>
      rw [mergeFetched_cons]
      apply ih
      cases hg : lmGet m (ID (I := I) v) with
      | none =>
          have hstep : mergeStep m v =
              lmPut m (ID v) { value := v, status := Status.Unchanged } := by
            simp only [mergeStep, hg]
          rw [hstep]
          exact storeInv_lmPut m _ _ hm (fun _ _ => rfl)
      | some it =>
          by_cases hs : it.status = Status.Added
          · have hstep : mergeStep m v =
                lmPut m (ID v) { value := it.value, status := Status.Modified } := by
              simp only [mergeStep, hg, if_pos hs]
            rw [hstep]
            apply storeInv_lmPut m _ _ hm
            intro _ _
            exact hm (ID v, it) (lmGet_mem m _ it hg) (by simp [hs]) (by simp [hs])
          · have hstep : mergeStep m v = m := by
              simp only [mergeStep, hg, if_neg hs]
            rw [hstep]
            exact hm

theorem storeInv_foldl_put (st : Status) (xs : List T) (m : List (I × Item T I))
    (hm : storeInv m) :
    storeInv (xs.foldl (fun acc v => lmPut acc (ID v) { value := v, status := st }) m) := by
  induction xs generalizing m with
  | nil => simpa using hm
  | cons v rest ih =>
      rw [List.foldl_cons]
      exact ih _ (storeInv_lmPut m _ _ hm (fun _ _ => rfl))

/-!  The fold of SetAll written out as a map, for stores whose keys do
not collide. -/

theorem foldl_put_append (xs : List T) (m : List (I × Item T I))
    (hdisj : ∀ v ∈ xs, ID (I := I) v ∉ m.map Prod.fst)
    (hnd : (xs.map (ID (I := I))).Nodup) :
    xs.foldl (fun acc v => lmPut acc (ID v) { value := v, status := Status.Added }) m =
      m ++ xs.map (fun v => (ID v, { value := v, status := Status.Added })) := by
  induction xs generalizing m with
  | nil => simp
  | cons v rest ih =>
      rw [List.foldl_cons, lmPut_of_not_mem _ _ _ (hdisj v (List.mem_cons_self _ _))]
      rw [List.map_cons, List.nodup_cons] at hnd
      rw [ih _ ?_ hnd.2]
      · simp
      · intro w hw
        simp only [List.map_append, List.map_cons]
        intro hmem
        rcases List.mem_append.mp hmem with h | h
        · exact hdisj w (List.mem_cons_of_mem _ hw) h
        · simp at h
          exact hnd.1 (h ▸ List.mem_map_of_mem (ID (I := I)) hw)

/-!  The claims. -/

/-- C1: Set(v) stores v under key v.id() with the status given by the
transition table (untracked, Absent or Added yield Added; Unchanged or
Removed yield Modified; Modified stays Modified); Remove(id) deletes the
entry entirely when the prior status is Added and otherwise stores a
Removed tombstone, returning true exactly when the id was previously
tracked. -/
theorem C1_set_remove_transitions (s : LazySlice T I) (v : T) (i : I)
    (hnd : (s.fetched.map Prod.fst).Nodup) :
    lmGet (s.Set v).fetched (ID v) =
        some { value := v,
               status := specSetStatus ((lmGet s.fetched (ID v)).map Item.status) }
      ∧ (s.Remove i).2 = (lmGet s.fetched i).isSome
      ∧ (∀ it, lmGet s.fetched i = some it → it.status = Status.Added →
          lmGet (s.Remove i).1.fetched i = none)
      ∧ (∀ it, lmGet s.fetched i = some it → it.status ≠ Status.Added →
          lmGet (s.Remove i).1.fetched i =
            some { value := default, status := Status.Removed })
      ∧ (lmGet s.fetched i = none →
          lmGet (s.Remove i).1.fetched i =
            some { value := default, status := Status.Removed }) := by
  refine ⟨?_, ?_, ?_, ?_, ?_⟩
  · cases hg : lmGet s.fetched (ID (I := I) v) with
    | none => simp [LazySlice.Set, hg, lmGet_lmPut_self, specSetStatus]
    | some it =>
        cases hst : it.status <;>
          simp [LazySlice.Set, hg, hst, lmGet_lmPut_self, specSetStatus]
  · cases hg : lmGet s.fetched i with
    | none => simp [LazySlice.Remove, hg]
    | some it =>
        by_cases hs : it.status = Status.Added <;>
          simp [LazySlice.Remove, hg, hs]
  · intro it hg hs
    simp only [LazySlice.Remove, hg, if_pos hs]
    exact lmGet_lmDelete_self s.fetched i hnd
  · intro it hg hs
    simp only [LazySlice.Remove, hg, if_neg hs]
    exact lmGet_lmPut_self _ _ _
  · intro hg
    simp only [LazySlice.Remove, hg]
    exact lmGet_lmPut_self _ _ _

/-- Witness for C1 at a concrete slice: setting id 1 (previously
Unchanged) yields Modified, and removing id 1 stores a Removed tombstone
and returns true. -/
theorem C1_set_remove_transitions_witness :
    lmGet (sampleSlice.Set { id := 1, val := "z" }).fetched 1 =
        some { value := { id := 1, val := "z" }, status := Status.Modified }
      ∧ (sampleSlice.Remove 1).2 = true
      ∧ (∀ it, lmGet sampleSlice.fetched 1 = some it → it.status = Status.Added →
          lmGet (sampleSlice.Remove 1).1.fetched 1 = none)
      ∧ (∀ it, lmGet sampleSlice.fetched 1 = some it → it.status ≠ Status.Added →
          lmGet (sampleSlice.Remove 1).1.fetched 1 =
            some { value := default, status := Status.Removed })
      ∧ (lmGet sampleSlice.fetched 1 = none →
          lmGet (sampleSlice.Remove 1).1.fetched 1 =
            some { value := default, status := Status.Removed }) :=
  C1_set_remove_transitions sampleSlice { id := 1, val := "z" } 1 (by decide)

/-- C2: on a not-yet-loaded slice whose fetch-all succeeds, GetAll
merges each fetched value into the store: an untracked identity is
inserted as Unchanged; an identity tracked as Added is upgraded to
Modified keeping the locally set value; identities tracked as Modified,
Removed or Absent are left untouched; afterwards isLoaded is true. -/
theorem C2_getall_merge (s : LazySlice T I) (fn : I → Except E (List T))
    (vs : List T) (hset : s.isSet = false) (hfn : fn default = Except.ok vs) :
    (LazySlice.GetAll fn s).2.1.isSet = true
      ∧ (∀ i it, lmGet s.fetched i = some it →
          it.status = Status.Modified ∨ it.status = Status.Removed ∨
            it.status = Status.Absent →
          lmGet (LazySlice.GetAll fn s).2.1.fetched i = some it)
      ∧ (∀ i it, lmGet s.fetched i = some it → it.status = Status.Added →
          i ∈ vs.map (ID (I := I)) →
          lmGet (LazySlice.GetAll fn s).2.1.fetched i =
            some { value := it.value, status := Status.Modified })
      ∧ (∀ i v, lmGet s.fetched i = none →
          vs.find? (fun w => decide (ID (I := I) w = i)) = some v →
          lmGet (LazySlice.GetAll fn s).2.1.fetched i =
            some { value := v, status := Status.Unchanged }) := by
  have hga : (LazySlice.GetAll fn s).2.1 =
      { s with fetched := mergeFetched s.fetched vs, isSet := true } := by
    simp [LazySlice.GetAll, hset, hfn]
  refine ⟨by rw [hga], ?_, ?_, ?_⟩
  · intro i it hg hs
    rw [hga]
    apply lmGet_mergeFetched_not_added vs s.fetched i it hg
    rcases hs with h | h | h <;> simp [h]
  · intro i it hg hs hmem
    rw [hga]
    exact lmGet_mergeFetched_added vs s.fetched i it hg hs hmem
  · intro i v hg hfind
    rw [hga]
    exact lmGet_mergeFetched_new vs s.fetched i v hg hfind

/-- Witness for C2: loading the pending slice (one local Added entry for
id 2) against a baseline containing ids 1 and 2. -/
theorem C2_getall_merge_witness :
    (LazySlice.GetAll okFetch pendingSlice).2.1.isSet = true
      ∧ (∀ i it, lmGet pendingSlice.fetched i = some it →
          it.status = Status.Modified ∨ it.status = Status.Removed ∨
            it.status = Status.Absent →
          lmGet (LazySlice.GetAll okFetch pendingSlice).2.1.fetched i = some it)
      ∧ (∀ i it, lmGet pendingSlice.fetched i = some it →
          it.status = Status.Added →
          i ∈ ([{ id := 1, val := "a0" }, { id := 2, val := "x0" }] : List TestVal).map
            (ID (I := Nat)) →
          lmGet (LazySlice.GetAll okFetch pendingSlice).2.1.fetched i =
            some { value := it.value, status := Status.Modified })
      ∧ (∀ i v, lmGet pendingSlice.fetched i = none →
          ([{ id := 1, val := "a0" }, { id := 2, val := "x0" }] : List TestVal).find?
              (fun w => decide (ID (I := Nat) w = i)) = some v →
          lmGet (LazySlice.GetAll okFetch pendingSlice).2.1.fetched i =
            some { value := v, status := Status.Unchanged }) :=
  C2_getall_merge pendingSlice okFetch
    [{ id := 1, val := "a0" }, { id := 2, val := "x0" }] (by decide) rfl

/-- C3: Get(id) returns NotFound for a tracked Absent or Removed entry;
returns the tracked value for any other tracked entry; returns NotFound
without fetching when untracked on a fully loaded slice; otherwise
fetches: an empty result stores an Absent tombstone and returns NotFound
(and a subsequent Get returns NotFound without re-invoking fetch), and a
non-empty result stores its first value as Unchanged and returns it. -/
theorem C3_get_cases (fn : I → Except E (List T)) (s : LazySlice T I) (i : I) :
    (∀ it, lmGet s.fetched i = some it →
        it.status = Status.Absent ∨ it.status = Status.Removed →
        LazySlice.Get fn s i = (Except.error GetError.notFound, s, false))
      ∧ (∀ it, lmGet s.fetched i = some it →
          it.status ≠ Status.Absent → it.status ≠ Status.Removed →
          LazySlice.Get fn s i = (Except.ok it.value, s, false))
      ∧ (lmGet s.fetched i = none → s.isSet = true →
          LazySlice.Get fn s i = (Except.error GetError.notFound, s, false))
      ∧ (lmGet s.fetched i = none → s.isSet = false → fn i = Except.ok [] →
          LazySlice.Get fn s i =
            (Except.error GetError.notFound,
             { s with fetched := lmPut s.fetched i
                          { value := default, status := Status.Absent } },
             true)
          ∧ ∀ fn2 : I → Except E (List T),
              LazySlice.Get fn2 (LazySlice.Get fn s i).2.1 i =
                (Except.error GetError.notFound, (LazySlice.Get fn s i).2.1, false))
      ∧ (∀ v rest, lmGet s.fetched i = none → s.isSet = false →
          fn i = Except.ok (v :: rest) →
          LazySlice.Get fn s i =
            (Except.ok v,
             { s with fetched := lmPut s.fetched (ID v)
                          { value := v, status := Status.Unchanged } },
             true)) := by
  refine ⟨?_, ?_, ?_, ?_, ?_⟩
  · intro it hg hs
    simp only [LazySlice.Get, hg, if_pos hs]
  · intro it hg h1 h2
    have hs : ¬(it.status = Status.Absent ∨ it.status = Status.Removed) := by
      rintro (h | h)
      · exact h1 h
      · exact h2 h
    simp only [LazySlice.Get, hg, if_neg hs]
  · intro hg hset
    simp [LazySlice.Get, hg, hset]
  · intro hg hset hfn
    have hmain : LazySlice.Get fn s i =
        (Except.error GetError.notFound,
         { s with fetched := lmPut s.fetched i
                      { value := default, status := Status.Absent } },
         true) := by
      simp [LazySlice.Get, hg, hset, hfn]
    refine ⟨hmain, ?_⟩
    intro fn2
    rw [hmain]
    have hg2 : lmGet
        (lmPut s.fetched i { value := default, status := Status.Absent })
        i = some { value := (default : T), status := Status.Absent } :=
      lmGet_lmPut_self _ _ _
    simp [LazySlice.Get, hg2]
  · intro v rest hg hset hfn
    simp [LazySlice.Get, hg, hset, hfn]

/-- Witness for C3 at id 99 on a not-yet-loaded slice whose fetch
returns the empty list, the section 8 scenario. -/
theorem C3_get_cases_witness :
    (lmGet pendingSlice.fetched 99 = none ∧ pendingSlice.isSet = false ∧
      okFetch 99 = Except.ok [])
    ∧ (LazySlice.Get okFetch pendingSlice 99 =
        (Except.error GetError.notFound,
         { pendingSlice with fetched := lmPut pendingSlice.fetched 99 { value := default, status := Status.Absent } },
         true)
      ∧ ∀ fn2 : Nat → Except String (List TestVal),
          LazySlice.Get fn2 (LazySlice.Get okFetch pendingSlice 99).2.1 99 =
            (Except.error GetError.notFound,
             (LazySlice.Get okFetch pendingSlice 99).2.1, false)) :=
  ⟨⟨by decide, by decide, rfl⟩,
   (C3_get_cases okFetch pendingSlice 99).2.2.2.1 (by decide) (by decide) rfl⟩

/-- C4: a failed fetch leaves the container entirely unmodified and is
never cached — the scalar Get returns the error with isLoaded still
false, GetAll returns the error with the store untouched and isLoaded
still false, and the next access invokes fetch again. -/
theorem C4_fetch_failure_not_cached {S : Type} (v : LazyScalar S)
    (fnv : Unit → Except E S) (s : LazySlice T I)
    (fns : I → Except E (List T)) (e1 e2 : E)
    (hv : v.isSet = false) (hfv : fnv () = Except.error e1)
    (hs : s.isSet = false) (hfs : fns default = Except.error e2) :
    LazyScalar.Get fnv v = (Except.error e1, v, true)
      ∧ (LazyScalar.Get fnv (LazyScalar.Get fnv v).2.1).2.2 = true
      ∧ LazySlice.GetAll fns s = (Except.error e2, s, true)
      ∧ (LazySlice.GetAll fns (LazySlice.GetAll fns s).2.1).2.2 = true := by
  have h1 : LazyScalar.Get fnv v = (Except.error e1, v, true) := by
    simp [LazyScalar.Get, hv, hfv]
  have h2 : LazySlice.GetAll fns s = (Except.error e2, s, true) := by
    simp [LazySlice.GetAll, hs, hfs]
  refine ⟨h1, ?_, h2, ?_⟩
  · rw [h1, h1]
  · rw [h2, h2]

/-- Witness for C4: an unloaded scalar and the pending slice against
always-failing fetch functions. -/
theorem C4_fetch_failure_not_cached_witness :
    LazyScalar.Get failScalarFetch (NewLazy Nat) =
        (Except.error "boom", NewLazy Nat, true)
      ∧ (LazyScalar.Get failScalarFetch
          (LazyScalar.Get failScalarFetch (NewLazy Nat)).2.1).2.2 = true
      ∧ LazySlice.GetAll failFetch pendingSlice =
          (Except.error "boom", pendingSlice, true)
      ∧ (LazySlice.GetAll failFetch
          (LazySlice.GetAll failFetch pendingSlice).2.1).2.2 = true :=
  C4_fetch_failure_not_cached (NewLazy Nat) failScalarFetch pendingSlice
    failFetch "boom" "boom" (by decide) rfl (by decide) rfl

/-- C5: on a loaded slice, GetAll yields exactly the values of entries
whose status is not Removed, in store order, and Changes yields exactly
the id, value and status of entries whose status is not Unchanged, in
store order, with the reset flag mirroring isReset; neither touches the
state. -/
theorem C5_views_complementary (fn : I → Except E (List T))
    (s : LazySlice T I) (h : s.isSet = true) :
    LazySlice.GetAll fn s =
        (Except.ok (((s.fetched.map Prod.snd).filter
            (fun it => decide (it.status ≠ Status.Removed))).map Item.value),
         s, false)
      ∧ LazySlice.Changes s =
          { Reset := s.isReset,
            Items := (s.fetched.filter
                (fun p => decide (p.2.status ≠ Status.Unchanged))).map
              (fun p => { ID := p.1, Value := p.2.value, Status := p.2.status }) } := by
  constructor
  · simp [LazySlice.GetAll, h, filterRemoved_eq_filter_map]
  · simp [LazySlice.Changes, changesList_eq_filter_map]

/-- Witness for C5 on the sample slice. -/
theorem C5_views_complementary_witness :
    LazySlice.GetAll failFetch sampleSlice =
        (Except.ok (((sampleSlice.fetched.map Prod.snd).filter
            (fun it => decide (it.status ≠ Status.Removed))).map Item.value),
         sampleSlice, false)
      ∧ LazySlice.Changes sampleSlice =
          { Reset := sampleSlice.isReset,
            Items := (sampleSlice.fetched.filter
                (fun p => decide (p.2.status ≠ Status.Unchanged))).map
              (fun p => { ID := p.1, Value := p.2.value, Status := p.2.status }) } :=
  C5_views_complementary failFetch sampleSlice (by decide)

/-- C6: when Set(x) leaves x.id() with status Added, following it with
Remove(x.id()) leaves that identity entirely absent from the store, so
no changeset item and no live-view entry carries it (round-trip
cancellation). -/
theorem C6_roundtrip_cancellation (s : LazySlice T I) (x : T)
    (hnd : (s.fetched.map Prod.fst).Nodup)
    (hadded : (lmGet (s.Set x).fetched (ID x)).map Item.status =
      some Status.Added) :
    lmGet ((s.Set x).Remove (ID x)).1.fetched (ID x) = none
      ∧ (∀ p ∈ ((s.Set x).Remove (ID x)).1.fetched, p.1 ≠ ID x)
      ∧ (∀ c ∈ (LazySlice.Changes ((s.Set x).Remove (ID x)).1).Items,
          c.ID ≠ ID x)
      ∧ filterRemoved (((s.Set x).Remove (ID x)).1.fetched.map Prod.snd) =
          filterRemoved ((((s.Set x).Remove (ID x)).1.fetched.filter
            (fun p => decide (p.1 ≠ ID x))).map Prod.snd) := by
  have hnd2 : ((s.Set x).fetched.map Prod.fst).Nodup := by
    cases hg : lmGet s.fetched (ID (I := I) x) with
    | none =>
        simp only [LazySlice.Set, hg]
        exact keys_lmPut_nodup _ _ _ hnd
    | some it =>
        simp only [LazySlice.Set, hg]
        exact keys_lmPut_nodup _ _ _ hnd
  obtain ⟨it, hgx, hst⟩ : ∃ it, lmGet (s.Set x).fetched (ID x) = some it ∧
      it.status = Status.Added := by
    cases hgx : lmGet (s.Set x).fetched (ID (I := I) x) with
    | none => rw [hgx] at hadded; simp at hadded
    | some it =>
        rw [hgx] at hadded
        exact ⟨it, rfl, by simpa using hadded⟩
  have hrem : ((s.Set x).Remove (ID x)).1.fetched =
      lmDelete (s.Set x).fetched (ID x) := by
    simp only [LazySlice.Remove, hgx, if_pos hst]
  have h1 : lmGet ((s.Set x).Remove (ID x)).1.fetched (ID x) = none := by
    rw [hrem]
    exact lmGet_lmDelete_self _ _ hnd2
  have h2 : ∀ p ∈ ((s.Set x).Remove (ID x)).1.fetched, p.1 ≠ ID x := by
    intro p hp hpx
    have hmem := List.mem_map_of_mem Prod.fst hp
    rw [hpx] at hmem
    exact (lmGet_eq_none_iff _ _).mp h1 hmem
  refine ⟨h1, h2, ?_, ?_⟩
  · intro c hc hcx
    have hmem := changesList_ID_mem_keys _ c hc
    rw [hcx] at hmem
    exact (lmGet_eq_none_iff _ _).mp h1 hmem
  · rw [List.filter_eq_self.mpr]
    intro p hp
    simpa using h2 p hp

/-- Witness for C6: adding a brand-new id 7 to the sample slice and then
removing it. -/
theorem C6_roundtrip_cancellation_witness :
    lmGet ((sampleSlice.Set { id := 7, val := "n" }).Remove 7).1.fetched 7 = none
      ∧ (∀ p ∈ ((sampleSlice.Set { id := 7, val := "n" }).Remove 7).1.fetched,
          p.1 ≠ 7)
      ∧ (∀ c ∈ (LazySlice.Changes
            ((sampleSlice.Set { id := 7, val := "n" }).Remove 7).1).Items,
          c.ID ≠ 7)
      ∧ filterRemoved
            (((sampleSlice.Set { id := 7, val := "n" }).Remove 7).1.fetched.map
              Prod.snd) =
          filterRemoved
            ((((sampleSlice.Set { id := 7, val := "n" }).Remove 7).1.fetched.filter
              (fun p => decide (p.1 ≠ 7))).map Prod.snd) :=
  C6_roundtrip_cancellation sampleSlice { id := 7, val := "n" }
    (by decide) (by decide)

/-- C7: SetAll(xs) discards the previous store, sets isReset and
isLoaded, and records every value of xs as Added in order; Clear is
observationally SetAll([]). -/
theorem C7_setall_clear (s : LazySlice T I) (xs : List T)
    (hnd : (xs.map (ID (I := I))).Nodup) :
    (s.SetAll xs).isReset = true ∧ (s.SetAll xs).isSet = true
      ∧ (s.SetAll xs).fetched =
          xs.map (fun v => (ID v, { value := v, status := Status.Added }))
      ∧ s.Clear = s.SetAll [] := by
  refine ⟨rfl, rfl, ?_, rfl⟩
  simp only [LazySlice.SetAll]
  rw [foldl_put_append xs [] (by simp) hnd]
  simp

/-- Witness for C7 on the pending slice with two fresh values. -/
theorem C7_setall_clear_witness :
    (pendingSlice.SetAll
        [{ id := 1, val := "a" }, { id := 2, val := "b" }]).isReset = true
      ∧ (pendingSlice.SetAll
          [{ id := 1, val := "a" }, { id := 2, val := "b" }]).isSet = true
      ∧ (pendingSlice.SetAll
          [{ id := 1, val := "a" }, { id := 2, val := "b" }]).fetched =
          ([{ id := 1, val := "a" }, { id := 2, val := "b" }] : List TestVal).map
            (fun v => (ID v, { value := v, status := Status.Added }))
      ∧ pendingSlice.Clear = pendingSlice.SetAll [] :=
  C7_setall_clear pendingSlice
    [{ id := 1, val := "a" }, { id := 2, val := "b" }] (by decide)

/-- C8: every operation (Set, SetAll, Remove, Clear, Get, GetAll, eager
and lazy construction) preserves the invariant that a store entry whose
value is present (status neither Removed nor Absent) has its key equal
to the identity of the stored value. -/
theorem C8_store_invariant_preserved :
    (∀ s : LazySlice T I, ∀ v : T, storeInv s.fetched →
        storeInv (s.Set v).fetched)
      ∧ (∀ s : LazySlice T I, ∀ xs : List T, storeInv (s.SetAll xs).fetched)
      ∧ (∀ s : LazySlice T I, ∀ i : I, storeInv s.fetched →
          storeInv (s.Remove i).1.fetched)
      ∧ (∀ s : LazySlice T I, storeInv s.Clear.fetched)
      ∧ (∀ fn : I → Except E (List T), ∀ s : LazySlice T I, ∀ i : I,
          storeInv s.fetched → storeInv (LazySlice.Get fn s i).2.1.fetched)
      ∧ (∀ fn : I → Except E (List T), ∀ s : LazySlice T I,
          storeInv s.fetched → storeInv (LazySlice.GetAll fn s).2.1.fetched)
      ∧ (∀ xs : List T, storeInv (NewSlice (I := I) xs).fetched)
      ∧ storeInv (NewLazySlice T I).fetched := by
  refine ⟨?_, ?_, ?_, ?_, ?_, ?_, ?_, ?_⟩
  · intro s v hm
    cases hg : lmGet s.fetched (ID (I := I) v) with
    | none =>
        simp only [LazySlice.Set, hg]
        exact storeInv_lmPut _ _ _ hm (fun _ _ => rfl)
    | some it =>
        simp only [LazySlice.Set, hg]
        exact storeInv_lmPut _ _ _ hm (fun _ _ => rfl)
  · intro s xs
    apply storeInv_foldl_put
    intro p hp
    simp at hp
  · intro s i hm
    cases hg : lmGet s.fetched i with
    | none =>
        simp only [LazySlice.Remove, hg]
        exact storeInv_lmPut _ _ _ hm (fun h1 _ => absurd rfl h1)
    | some it =>
        by_cases hs : it.status = Status.Added
        · simp only [LazySlice.Remove, hg, if_pos hs]
          exact storeInv_lmDelete _ _ hm
        · simp only [LazySlice.Remove, hg, if_neg hs]
          exact storeInv_lmPut _ _ _ hm (fun h1 _ => absurd rfl h1)
  · intro s p hp
    simp [LazySlice.Clear] at hp
  · intro fn s i hm
    cases hg : lmGet s.fetched i with
    | some it =>
        by_cases hs : it.status = Status.Absent ∨ it.status = Status.Removed
        · simp only [LazySlice.Get, hg, if_pos hs]
          exact hm
        · simp only [LazySlice.Get, hg, if_neg hs]
          exact hm
    | none =>
        cases hset : s.isSet with
        | true =>
            simp only [LazySlice.Get, hg, hset, if_pos rfl]
            exact hm
        | false =>
            cases hfn : fn i with
            | error e =>
                simp [LazySlice.Get, hg, hset, hfn]
                exact hm
            | ok vs =>
                cases vs with
                | nil =>
                    simp [LazySlice.Get, hg, hset, hfn]
                    exact storeInv_lmPut _ _ _ hm (fun _ h2 => absurd rfl h2)
                | cons v rest =>
                    simp [LazySlice.Get, hg, hset, hfn]
                    exact storeInv_lmPut _ _ _ hm (fun _ _ => rfl)
  · intro fn s hm
    cases hset : s.isSet with
    | true =>
        simp [LazySlice.GetAll, hset]
        exact hm
    | false =>
        cases hfn : fn default with
        | error e =>
            simp [LazySlice.GetAll, hset, hfn]
            exact hm
        | ok vs =>
            simp [LazySlice.GetAll, hset, hfn]
            exact storeInv_mergeFetched vs _ hm
  · intro xs
    apply storeInv_foldl_put
    intro p hp
    simp at hp
  · intro p hp
    simp [NewLazySlice] at hp

/-- Witness for C8: the invariant holds of the sample slice and is kept
by a Set of a fresh value there. -/
theorem C8_store_invariant_preserved_witness :
    storeInv (sampleSlice.Set { id := 7, val := "n" }).fetched :=
  (C8_store_invariant_preserved (T := TestVal) (I := Nat) (E := String)).1
    sampleSlice { id := 7, val := "n" } (by decide)

/-- C9: the eager Slice Get never fails and ignores tombstone statuses:
a tracked identity yields the stored value whatever its status
(Removed and Absent included), an untracked identity yields the zero
value of T, while the lazy Get returns NotFound in those cases. -/
theorem C9_eager_get_ignores_status (s : LazySlice T I) (i : I) :
    (∀ it, lmGet s.fetched i = some it → Slice.Get s i = it.value)
      ∧ (lmGet s.fetched i = none → Slice.Get s i = (default : T))
      ∧ (∀ fn : I → Except E (List T), ∀ it, lmGet s.fetched i = some it →
          it.status = Status.Removed ∨ it.status = Status.Absent →
          (LazySlice.Get fn s i).1 = Except.error GetError.notFound
            ∧ Slice.Get s i = it.value)
      ∧ (∀ fn : I → Except E (List T), lmGet s.fetched i = none →
          s.isSet = true →
          (LazySlice.Get fn s i).1 = Except.error GetError.notFound
            ∧ Slice.Get s i = (default : T)) := by
  refine ⟨?_, ?_, ?_, ?_⟩
  · intro it hg
    simp [Slice.Get, hg]
  · intro hg
    simp [Slice.Get, hg]
  · intro fn it hg hs
    constructor
    · simp only [LazySlice.Get, hg, if_pos (Or.symm hs)]
    · simp [Slice.Get, hg]
  · intro fn hg hset
    constructor
    · simp [LazySlice.Get, hg, hset]
    · simp [Slice.Get, hg]

/-- Witness for C9 at id 4 of the sample slice, a Removed tombstone
holding the zero value. -/
theorem C9_eager_get_ignores_status_witness :
    (∀ it, lmGet sampleSlice.fetched 4 = some it →
        Slice.Get sampleSlice 4 = it.value)
      ∧ (lmGet sampleSlice.fetched 4 = none →
          Slice.Get sampleSlice 4 = (default : TestVal))
      ∧ (∀ fn : Nat → Except String (List TestVal), ∀ it,
          lmGet sampleSlice.fetched 4 = some it →
          it.status = Status.Removed ∨ it.status = Status.Absent →
          (LazySlice.Get fn sampleSlice 4).1 = Except.error GetError.notFound
            ∧ Slice.Get sampleSlice 4 = it.value)
      ∧ (∀ fn : Nat → Except String (List TestVal),
          lmGet sampleSlice.fetched 4 = none → sampleSlice.isSet = true →
          (LazySlice.Get fn sampleSlice 4).1 = Except.error GetError.notFound
            ∧ Slice.Get sampleSlice 4 = (default : TestVal)) :=
  C9_eager_get_ignores_status sampleSlice 4

/-- C10: a Removed tombstone written by Remove on a non-Added identity
holds the zero value of T, so Changes reports that identity with the
zero value; likewise the Absent tombstone recorded by Get holds the zero
value. -/
theorem C10_tombstones_hold_zero_value :
    (∀ s : LazySlice T I, ∀ i : I,
        (∀ it, lmGet s.fetched i = some it → it.status ≠ Status.Added) →
        lmGet (s.Remove i).1.fetched i =
            some { value := default, status := Status.Removed }
          ∧ ({ ID := i, Value := (default : T), Status := Status.Removed } :
              SliceChange I T) ∈ (LazySlice.Changes (s.Remove i).1).Items)
      ∧ (∀ fn : I → Except E (List T), ∀ s : LazySlice T I, ∀ i : I,
          lmGet s.fetched i = none → s.isSet = false → fn i = Except.ok [] →
          lmGet (LazySlice.Get fn s i).2.1.fetched i =
            some { value := default, status := Status.Absent }) := by
  constructor
  · intro s i hna
    have hput : (s.Remove i).1.fetched =
        lmPut s.fetched i { value := default, status := Status.Removed } := by
      cases hg : lmGet s.fetched i with
      | none => simp only [LazySlice.Remove, hg]
      | some it => simp only [LazySlice.Remove, hg, if_neg (hna it hg)]
    refine ⟨by rw [hput]; exact lmGet_lmPut_self _ _ _, ?_⟩
    show _ ∈ changesList (s.Remove i).1.fetched
    rw [hput]
    exact mem_changesList _ i { value := default, status := Status.Removed }
      (self_mem_lmPut _ _ _) (by simp)
  · intro fn s i hg hset hfn
    simp [LazySlice.Get, hg, hset, hfn, lmGet_lmPut_self]

/-- Witness for C10: removing the Unchanged id 1 from the sample slice
and fetching the absent id 99 on the pending slice. -/
theorem C10_tombstones_hold_zero_value_witness :
    (lmGet (sampleSlice.Remove 1).1.fetched 1 =
        some { value := default, status := Status.Removed }
      ∧ ({ ID := 1, Value := (default : TestVal), Status := Status.Removed } :
          SliceChange Nat TestVal) ∈
          (LazySlice.Changes (sampleSlice.Remove 1).1).Items)
    ∧ lmGet (LazySlice.Get okFetch pendingSlice 99).2.1.fetched 99 =
        some { value := default, status := Status.Absent } :=
  ⟨(C10_tombstones_hold_zero_value (E := String)).1 sampleSlice 1
      (by decide),
   (C10_tombstones_hold_zero_value (E := String)).2 okFetch pendingSlice 99
      (by decide) (by decide) rfl⟩

end Delta
